import Mathlib

/-!
Verification of the Mermaid swimlane diagram engine of this repository
(`lib/mermaid-helper.js`, with the validation entry of
`api/n8n-flow-diagram.js`).  The JavaScript source is shallowly embedded:
each helper function becomes a Lean function of the same name, the string
emission of `generateMermaidCode` is factored through a list of structured
`Line` values (one per emitted source line, in the exact order the source
appends them) together with a `renderLine` formatter, so that
`generateMermaidCode` itself is the literal string the source builds.
-/

set_option maxRecDepth 100000

namespace MermaidHelper

/-- A decision branch record: `\x7b label, target \x7d` in the source. -/
structure Branch where
  label : String
  target : String
deriving DecidableEq

/-- A process step record as consumed by `generateMermaidCode`. -/
structure Step where
  name : String
  department : String
  isDecision : Bool
  branches : List Branch
deriving DecidableEq

/-- A handoff record (parallel to consecutive step pairs). -/
structure Handoff where
  method : String
  clarity : String
deriving DecidableEq

/-- A process object: `steps[]`, `handoffs[]`, the start/complete texts
(`definition.startsWhen` / top-level `startsWhen`, same for completes,
with the empty string standing for a missing/falsy field) and
`bottleneck.longestStep`. -/
structure Process where
  steps : List Step
  handoffs : List Handoff
  defStartsWhen : String
  startsWhen : String
  defCompletesWhen : String
  completesWhen : String
  bottleneckLongestStep : Option String
deriving DecidableEq

def defaultStep : Step := { name := "", department := "", isDecision := false, branches := [] }

/-! ## escMermaid -/

/-- The double-quote character. -/
def dquote : Char := Char.ofNat 34

/-- The apostrophe character. -/
def squote : Char := Char.ofNat 39

/-- The characters removed by `escMermaid`'s bracket-stripping step:
`[ ] \x7b \x7d ( ) # &`. -/
def bracketChars : List Char := ['[', ']', Char.ofNat 123, Char.ofNat 125, '(', ')', '#', '&']

/-- `.replace(/"/g, "'")`, per character. -/
def repQuote (c : Char) : Char := if c = dquote then squote else c

/-- `.replace(/[[\]\x7b\x7d()#&]/g, ' ')`, per character. -/
def repBracket (c : Char) : Char := if c ∈ bracketChars then ' ' else c

/-- `.replace(/\n/g, ' ')`, per character. -/
def repNewline (c : Char) : Char := if c = '\n' then ' ' else c

/-- `.trim()` on a character list. -/
def trimChars (cs : List Char) : List Char :=
  ((cs.dropWhile Char.isWhitespace).reverse.dropWhile Char.isWhitespace).reverse

/-- `escMermaid` on character lists: quote replacement, bracket stripping,
newline replacement, `.substring(0, 50)`, `.trim()` — in source order. -/
def escList (cs : List Char) : List Char :=
  trimChars ((((cs.map repQuote).map repBracket).map repNewline).take 50)

/-- `escMermaid(str)` from `lib/mermaid-helper.js` (with the `str || ''`
coercion of a missing argument modelled by the empty string). -/
def escMermaid (s : String) : String := String.mk (escList s.data)

/-! ## resolveBranchTarget -/

/-- The first maximal run of decimal digits of a character list
(what `target.match(/(\d+)/)` captures), or `none`. -/
def firstDigitRun : List Char → Option (List Char)
  | [] => none
  | c :: cs => if c.isDigit then some (c :: cs.takeWhile Char.isDigit) else firstDigitRun cs

/-- Decimal value of a digit run (what `parseInt` returns on it). -/
def digitsToNat (ds : List Char) : Nat := ds.foldl (fun a c => a * 10 + (c.toNat - 48)) 0

/-- `resolveBranchTarget(target)` from `lib/mermaid-helper.js`:
`-1` for a falsy target, otherwise `parseInt(firstDigitRun) - 1`,
or `-1` when the target holds no digit. -/
def resolveBranchTarget (target : String) : Int :=
  if target = "" then -1
  else
    match firstDigitRun target.data with
    | some ds => (digitsToNat ds : Int) - 1
    | none => -1

/-- `isDecisionNode(step)` from `lib/mermaid-helper.js`. -/
def isDecisionNode (s : Step) : Bool := s.isDecision && decide (s.branches ≠ [])

/-! ## Structured view of the emitted Mermaid text

`generateMermaidCode` appends one line of text at a time.  We mirror that
emission as a list of structured `Line` values (same order, one value per
appended line) and a `renderLine` formatter producing exactly the text the
source appends for it. -/

/-- Node references appearing in arrows: a numbered step node
(`pfx ++ "S" ++ n`), the start node or the done node. -/
inductive NodeRef where
  | step (pfx : String) (num : Nat)
  | start (pfx : String)
  | done (pfx : String)
deriving DecidableEq

/-- Arrow variants of the source: `-->`, `-->|"l"|`, `-.->|"l"|`. -/
inductive ArrowKind where
  | plain
  | labeled (l : String)
  | dotted (l : String)
deriving DecidableEq

/-- Node shapes of the source: `[. .]`, `\x7b. .\x7d`, `\x7b\x7b. .\x7d\x7d`. -/
inductive Shape where
  | rect
  | diamond
  | hexagon
deriving DecidableEq

/-- One emitted line of the Mermaid text, in structured form. -/
inductive Line where
  | subgraphBegin (id : String) (label : String)
  | directionLR
  | nodeDef (pfx : String) (num : Nat) (shape : Shape) (label : String)
  | invLink (pfx : String) (a b : Nat)
  | subgraphEnd
  | styleSubgraph (id : String) (bg : String) (stroke : String)
  | startNode (pfx : String) (label : String)
  | arrow (k : ArrowKind) (a b : NodeRef)
  | styleStart (pfx : String)
  | doneArrow (pfx : String) (n : Nat) (label : String)
  | doneNode (pfx : String) (label : String)
  | styleDone (pfx : String)
  | styleStep (pfx : String) (num : Nat) (css : String)
deriving DecidableEq

def renderRef : NodeRef → String
  | .step pfx num => pfx ++ "S" ++ toString num
  | .start pfx => pfx ++ "START"
  | .done pfx => pfx ++ "DONE"

def renderArrowKind : ArrowKind → String
  | .plain => " --> "
  | .labeled l => " -->|\"" ++ l ++ "\"| "
  | .dotted l => " -.->|\"" ++ l ++ "\"| "

def bottleneckCss : String := "fill:#fee2e2,stroke:#ef4444,stroke-width:3px,color:#991b1b"

def decisionCss : String := "fill:#ede9fe,stroke:#7c3aed,stroke-width:2px,color:#5b21b6"

def approvalCss : String := "fill:#fef3c7,stroke:#d97706,stroke-width:2px,color:#92400e"

def startDoneCss : String := "fill:#d1fae5,stroke:#059669,stroke-width:2px,color:#064e3b"

/-- Exact text the source appends for each structured line. -/
def renderLine : Line → String
  | .subgraphBegin id label => "\n    subgraph " ++ id ++ "[\"  " ++ label ++ "  \"]\n"
  | .directionLR => "        direction LR\n"
  | .nodeDef pfx num shape label =>
    let id := pfx ++ "S" ++ toString num
    match shape with
    | .diamond => "        " ++ id ++ "\x7b\"" ++ label ++ "\"\x7d\n"
    | .hexagon => "        " ++ id ++ "\x7b\x7b\"" ++ label ++ "\"\x7d\x7d\n"
    | .rect => "        " ++ id ++ "[\"" ++ label ++ "\"]\n"
  | .invLink pfx a b => "        " ++ pfx ++ "S" ++ toString a ++ " ~~~ " ++ pfx ++ "S" ++ toString b ++ "\n"
  | .subgraphEnd => "    end\n"
  | .styleSubgraph id bg stroke =>
    "    style " ++ id ++ " fill:" ++ bg ++ ",stroke:" ++ stroke ++ ",stroke-width:2px,color:#1e293b\n"
  | .startNode pfx label => "\n    " ++ pfx ++ "START([\"" ++ label ++ "\"])\n"
  | .arrow k a b => "    " ++ renderRef a ++ renderArrowKind k ++ renderRef b ++ "\n"
  | .styleStart pfx => "    style " ++ pfx ++ "START " ++ startDoneCss ++ "\n"
  | .doneArrow pfx n label =>
    "\n    " ++ pfx ++ "S" ++ toString n ++ " --> " ++ pfx ++ "DONE([\"" ++ label ++ "\"])\n"
  | .doneNode pfx label => "\n    " ++ pfx ++ "DONE([\"" ++ label ++ "\"])\n"
  | .styleDone pfx => "    style " ++ pfx ++ "DONE " ++ startDoneCss ++ "\n"
  | .styleStep pfx num css => "    style " ++ pfx ++ "S" ++ toString num ++ " " ++ css ++ "\n"

/-! ## Department lanes (the `deptSteps` / `deptOrder` grouping) -/

/-- `s.department || 'Other'`. -/
def deptOf (s : Step) : String := if s.department = "" then "Other" else s.department

/-- The steps paired with their 1-based numbers, in input order
(the `(i, s)` of the source's `forEach` with `number = i + 1`). -/
def numbered (steps : List Step) : List (Step × Nat) :=
  steps.enum.map (fun p => (p.2, p.1 + 1))

/-- Insert a numbered step into the lane list: append into the existing
lane of its department, or open a new lane at the end (the source's
`deptSteps[dept].push` / `deptOrder.push`). -/
def addToLanes (lanes : List (String × List (Step × Nat))) (d : String) (x : Step × Nat) :
    List (String × List (Step × Nat)) :=
  match lanes with
  | [] => [(d, [x])]
  | (k, xs) :: rest => if k = d then (k, xs ++ [x]) :: rest else (k, xs) :: addToLanes rest d x

/-- The `deptOrder`/`deptSteps` grouping of the source, as an ordered
association list: lanes in order of first appearance of each department,
lane contents in step order. -/
def buildLanes (steps : List Step) : List (String × List (Step × Nat)) :=
  (numbered steps).foldl (fun ls x => addToLanes ls (deptOf x.1) x) []

/-- `dept.replace(/[^a-zA-Z0-9]/g, '_')`. -/
def sanitizeId (d : String) : String :=
  String.mk (d.data.map (fun c => if c.isAlphanum then c else '_'))

/-- Case-insensitive-ready substring test on character lists. -/
def containsSub (hay needle : List Char) : Bool :=
  match hay with
  | [] => needle.isEmpty
  | _ :: t => needle.isPrefixOf hay || containsSub t needle

/-- `toLowerCase()` on the characters of a string (the names compared are
ASCII, where JavaScript's and Lean's per-character lowercasing agree). -/
def lowerData (s : String) : List Char := s.data.map Char.toLower

/-- `s.name && (toLowerCase().includes('approv') || toLowerCase().includes('review'))`. -/
def isApprovalName (name : String) : Bool :=
  decide (name ≠ "") &&
    (containsSub (lowerData name) "approv".data || containsSub (lowerData name) "review".data)

/-- Shape chosen for a step's node definition (decision diamond, approval
hexagon, default rectangle — in source order). -/
def shapeOf (s : Step) : Shape :=
  if isDecisionNode s then .diamond
  else if isApprovalName s.name then .hexagon
  else .rect

/-- The invisible ordering links inside a lane: one `~~~` line per
consecutive lane pair whose step numbers are not consecutive. -/
def invLinks (pfx : String) : List (Step × Nat) → List Line
  | a :: b :: rest =>
    (if b.2 ≠ a.2 + 1 then [Line.invLink pfx a.2 b.2] else []) ++ invLinks pfx (b :: rest)
  | _ => []

/-- The module-level lookup tables `DEPT_BG` / `DEPT_STROKE`, threaded
explicitly so the (absence of) cross-call state can be stated. -/
structure ModuleConsts where
  bg : String → Option String
  stroke : String → Option String

def DEPT_BG : String → Option String := fun d =>
  if d = "Sales" then some "#dbeafe" else if d = "Operations" then some "#fef3c7"
  else if d = "Finance" then some "#dcfce7" else if d = "IT" then some "#e0e7ff"
  else if d = "Customer Success" then some "#fce7f3" else if d = "Product" then some "#f3e8ff"
  else if d = "Leadership" then some "#fef9c3" else if d = "HR" then some "#ffedd5"
  else if d = "Other" then some "#f1f5f9" else none

def DEPT_STROKE : String → Option String := fun d =>
  if d = "Sales" then some "#3b82f6" else if d = "Operations" then some "#f59e0b"
  else if d = "Finance" then some "#22c55e" else if d = "IT" then some "#6366f1"
  else if d = "Customer Success" then some "#ec4899" else if d = "Product" then some "#a855f7"
  else if d = "Leadership" then some "#ca8a04" else if d = "HR" then some "#ea580c"
  else if d = "Other" then some "#94a3b8" else none

def defaultConsts : ModuleConsts := ⟨DEPT_BG, DEPT_STROKE⟩

/-- Lines of one department subgraph (header, direction, node definitions,
invisible links, end, style) — the body of the source's `deptOrder.forEach`
(`safeDept` is `pfx ++ sanitizeId dept`). -/
def laneLines (mc : ModuleConsts) (pfx : String) (dept : String) (ms : List (Step × Nat)) :
    List Line :=
  [Line.subgraphBegin (pfx ++ sanitizeId dept) (escMermaid dept), Line.directionLR]
    ++ ms.map (fun x => Line.nodeDef pfx x.2 (shapeOf x.1) (escMermaid x.1.name))
    ++ invLinks pfx ms
    ++ [Line.subgraphEnd,
        Line.styleSubgraph (pfx ++ sanitizeId dept)
          ((mc.bg dept).getD "#f1f5f9") ((mc.stroke dept).getD "#94a3b8")]

/-! ## Sequential arrows (handoff-styled), branch arrows, end node -/

/-- The sequential arrow the source emits for index `i`, if any:
skipped for the last step and for decision steps; dotted for a bad-clarity
handoff; labeled for a cross-department handoff with a method; plain
otherwise (the label is the method with each hyphen replaced by a space). -/
def hyphenToSpace (m : String) : String :=
  String.mk (m.data.map (fun c => if c = '-' then ' ' else c))

def seqEmit (pfx : String) (steps : List Step) (handoffs : List Handoff) (i : Nat) (s : Step) :
    Option Line :=
  if i + 1 < steps.length ∧ ¬ isDecisionNode s then
    match handoffs.get? i with
    | some h =>
      if h.clarity = "yes-multiple" ∨ h.clarity = "yes-major" then
        some (Line.arrow (.dotted (escMermaid (hyphenToSpace h.method)))
          (.step pfx (i + 1)) (.step pfx (i + 2)))
      else if hyphenToSpace h.method ≠ "" ∧
          some s.department ≠ (steps.get? (i + 1)).map Step.department then
        some (Line.arrow (.labeled (escMermaid (hyphenToSpace h.method)))
          (.step pfx (i + 1)) (.step pfx (i + 2)))
      else
        some (Line.arrow .plain (.step pfx (i + 1)) (.step pfx (i + 2)))
    | none => some (Line.arrow .plain (.step pfx (i + 1)) (.step pfx (i + 2)))
  else none

/-- All sequential arrow lines of a process, in step order. -/
def seqLines (pfx : String) (steps : List Step) (handoffs : List Handoff) : List Line :=
  steps.enum.filterMap (fun x => seqEmit pfx steps handoffs x.1 x.2)

/-- Arrow kind carried by a branch arrow: unlabeled when the escaped
branch label is empty. -/
def brKind (br : Branch) : ArrowKind :=
  if escMermaid br.label = "" then .plain else .labeled (escMermaid br.label)

/-- The arrow the source emits for one branch of the decision step at
index `i`: to `S(target+1)` when the resolved target is in `[0, n)`,
else to the `DONE` node. -/
def branchArrowFor (pfx : String) (n : Nat) (i : Nat) (br : Branch) : Line :=
  if 0 ≤ resolveBranchTarget br.target ∧ resolveBranchTarget br.target < (n : Int) then
    Line.arrow (brKind br) (.step pfx (i + 1))
      (.step pfx ((resolveBranchTarget br.target).toNat + 1))
  else
    Line.arrow (brKind br) (.step pfx (i + 1)) (.done pfx)

/-- The branch arrows emitted for the step at index `i` (none unless it is
a decision node). -/
def branchLinesFor (pfx : String) (n : Nat) (i : Nat) (s : Step) : List Line :=
  if isDecisionNode s then s.branches.map (branchArrowFor pfx n i) else []

/-- All branch arrow lines, in step order then branch order. -/
def branchLines (pfx : String) (steps : List Step) : List Line :=
  steps.enum.flatMap (fun x => branchLinesFor pfx steps.length x.1 x.2)

/-- The end-node emission: an arrow from the last step into the `DONE`
definition unless the last step is a decision node, else the bare `DONE`
definition. -/
def endLines (pfx : String) (steps : List Step) (completes : String) : List Line :=
  if isDecisionNode (steps.getD (steps.length - 1) defaultStep) then
    [Line.doneNode pfx completes]
  else
    [Line.doneArrow pfx steps.length completes]

/-! ## Bottleneck and emphasis styling -/

/-- `replace('step-', '')` — first occurrence only, as in JS string
`replace` with a string pattern. -/
def replaceFirstL (pat rep : List Char) : List Char → List Char
  | [] => if pat.isPrefixOf ([] : List Char) then rep else []
  | c :: t =>
    if pat.isPrefixOf (c :: t) then rep ++ (c :: t).drop pat.length
    else c :: replaceFirstL pat rep t

/-- Leading decimal digits of a character list, or `none`. -/
def digitsPrefix (l : List Char) : Option Nat :=
  let ds := l.takeWhile Char.isDigit
  if ds = [] then none else some (digitsToNat ds)

/-- JavaScript `parseInt(s)` (radix 10): leading whitespace, optional
sign, then a digit run; `none` for NaN. -/
def parseIntJS (s : String) : Option Int :=
  match s.data.dropWhile Char.isWhitespace with
  | '-' :: rest => (digitsPrefix rest).map (fun n => -(n : Int))
  | '+' :: rest => (digitsPrefix rest).map (fun n => (n : Int))
  | cs => (digitsPrefix cs).map (fun n => (n : Int))

/-- The bottleneck style line, when `bottleneck.longestStep` is truthy,
parses to an integer (after stripping one `step-`), and is in range. -/
def bottleneckLines (pfx : String) (steps : List Step) (b : Option String) : List Line :=
  match b with
  | some ls =>
    if ls ≠ "" then
      match parseIntJS (String.mk (replaceFirstL "step-".data [] ls.data)) with
      | some idx =>
        if 0 ≤ idx ∧ idx < (steps.length : Int) then
          [Line.styleStep pfx (idx.toNat + 1) bottleneckCss]
        else []
      | none => []
    else []
  | none => []

/-- Per-step emphasis style lines: purple for decision nodes, amber for
approval/review-named steps. -/
def emphasisLines (pfx : String) (steps : List Step) : List Line :=
  steps.enum.flatMap (fun x =>
    if isDecisionNode x.2 then [Line.styleStep pfx (x.1 + 1) decisionCss]
    else if isApprovalName x.2.name then [Line.styleStep pfx (x.1 + 1) approvalCss]
    else [])

/-! ## The whole per-process emission and the entry points -/

/-- `p.definition?.startsWhen || p.startsWhen || 'Start'`. -/
def startsWhenOf (p : Process) : String :=
  if p.defStartsWhen ≠ "" then p.defStartsWhen
  else if p.startsWhen ≠ "" then p.startsWhen
  else "Start"

/-- `p.definition?.completesWhen || p.completesWhen || 'Complete'`. -/
def completesWhenOf (p : Process) : String :=
  if p.defCompletesWhen ≠ "" then p.defCompletesWhen
  else if p.completesWhen ≠ "" then p.completesWhen
  else "Complete"

/-- The process id prefix: `P(pi+1)_` when more than one process. -/
def pfxOf (total : Nat) (pi : Nat) : String :=
  if total > 1 then "P" ++ toString (pi + 1) ++ "_" else ""

/-- All lines emitted for one process, in source order: lanes, start
node/arrow/style, sequential arrows, branch arrows, end node, done style,
bottleneck style, emphasis styles.  A process with no steps emits nothing. -/
def processLines (mc : ModuleConsts) (total : Nat) (pi : Nat) (p : Process) : List Line :=
  if p.steps.length = 0 then []
  else
    (buildLanes p.steps).flatMap (fun l => laneLines mc (pfxOf total pi) l.1 l.2)
      ++ [Line.startNode (pfxOf total pi) (escMermaid (startsWhenOf p)),
          Line.arrow .plain (.start (pfxOf total pi)) (.step (pfxOf total pi) 1),
          Line.styleStart (pfxOf total pi)]
      ++ seqLines (pfxOf total pi) p.steps p.handoffs
      ++ branchLines (pfxOf total pi) p.steps
      ++ endLines (pfxOf total pi) p.steps (escMermaid (completesWhenOf p))
      ++ [Line.styleDone (pfxOf total pi)]
      ++ bottleneckLines (pfxOf total pi) p.steps p.bottleneckLongestStep
      ++ emphasisLines (pfxOf total pi) p.steps

/-- All lines emitted for a process list. -/
def emitLinesWith (mc : ModuleConsts) (ps : List Process) : List Line :=
  ps.enum.flatMap (fun x => processLines mc ps.length x.1 x.2)

/-- Structured line list of `generateMermaidCode` with the default module
tables. -/
def emitLines (ps : List Process) : List Line := emitLinesWith defaultConsts ps

/-- Concatenation of the rendered lines (the source's repeated `m += ...`;
string append is associative, so the fold direction is immaterial). -/
def renderAll (ls : List Line) : String :=
  ls.foldr (fun l acc => renderLine l ++ acc) ""

/-- The emitted Mermaid text given explicit module tables. -/
def generateMermaidCodeWith (mc : ModuleConsts) (ps : List Process) : String :=
  "graph TB\n" ++ renderAll (emitLinesWith mc ps)

/-- `generateMermaidCode(processes)` from `lib/mermaid-helper.js`. -/
def generateMermaidCode (ps : List Process) : String :=
  generateMermaidCodeWith defaultConsts ps

/-- One call of the engine together with the module-level state it reads:
the returned state is the state after the call (the source never writes
`DEPT_BG`/`DEPT_STROKE`, so the call returns its input state). -/
def generateMermaidCodeSt (mc : ModuleConsts) (ps : List Process) : String × ModuleConsts :=
  (generateMermaidCodeWith mc ps, mc)

/-- The input validation of `api/n8n-flow-diagram.js`'s handler before it
calls `generateMermaidCode`: only a missing or empty process list is
rejected (`400 No process data provided`). -/
def handlerValidate (processes : Option (List Process)) : Except String String :=
  match processes with
  | none => Except.error "No process data provided"
  | some ps =>
    if ps.length = 0 then Except.error "No process data provided"
    else Except.ok (generateMermaidCode ps)

/-! ## Observation functions on emitted lines -/

/-- The `(from, to)` endpoints of a connection line, if the line draws one. -/
def arrowEnds : Line → Option (NodeRef × NodeRef)
  | .arrow _ a b => some (a, b)
  | .doneArrow pfx n _ => some (.step pfx n, .done pfx)
  | _ => none

/-- The node identities a line defines (step nodes, start node, done node). -/
def nodeIds : Line → List NodeRef
  | .nodeDef pfx num _ _ => [NodeRef.step pfx num]
  | .startNode pfx _ => [NodeRef.start pfx]
  | .doneArrow pfx _ _ => [NodeRef.done pfx]
  | .doneNode pfx _ => [NodeRef.done pfx]
  | _ => []

/-- The step number of a step-node definition line, if the line is one. -/
def stepDefNum : Line → Option Nat
  | .nodeDef _ num _ _ => some num
  | _ => none

/-- The text labels a line embeds in the diagram (node text, subgraph
title, arrow label, start/done text). -/
def lineLabels : Line → List String
  | .subgraphBegin _ l => [l]
  | .nodeDef _ _ _ l => [l]
  | .arrow k _ _ =>
    match k with
    | .labeled l => [l]
    | .dotted l => [l]
    | .plain => []
  | .startNode _ l => [l]
  | .doneArrow _ _ l => [l]
  | .doneNode _ l => [l]
  | _ => []

/-! ## Specification-side definitions

`specSerpentineRow`/`specSerpentineCol` follow the spec's words for the
serpentine grid (§4.2), for comparison with the source's placement.
`keyOrder`/`lanesSpec` state the grouping the source actually performs,
used by the amended placement claim. -/

/-- Modelled from the spec's serpentine grid: row of step `i` is
`floor(i / C)`. -/
def specSerpentineRow (C i : Nat) : Nat := i / C

/-- Modelled from the spec's serpentine grid: column of step `i` is
`i mod C` on even rows and `C - 1 - (i mod C)` on odd rows. -/
def specSerpentineCol (C i : Nat) : Nat :=
  if (i / C) % 2 = 0 then i % C else C - 1 - (i % C)

/-- The distinct values of a list in order of first appearance. -/
def keyOrder (ds : List String) : List String :=
  ds.foldl (fun acc d => if d ∈ acc then acc else acc ++ [d]) []

/-- Grouping of numbered steps by department: one lane per department in
first-appearance order, each lane holding its steps in input order. -/
def lanesSpec (xs : List (Step × Nat)) : List (String × List (Step × Nat)) :=
  (keyOrder (xs.map (fun x => deptOf x.1))).map
    (fun d => (d, xs.filter (fun x => deptOf x.1 == d)))

/-- Labels that are values of `escMermaid`. -/
def escImage (lab : String) : Prop := ∃ s, lab = escMermaid s

/-- The fields the styling-only claim holds fixed: same steps and the
same start/complete texts — handoffs and bottleneck are free to differ. -/
def frameRel (p p' : Process) : Prop :=
  p.steps = p'.steps ∧ p.defStartsWhen = p'.defStartsWhen ∧ p.startsWhen = p'.startsWhen
    ∧ p.defCompletesWhen = p'.defCompletesWhen ∧ p.completesWhen = p'.completesWhen

/-! ## Concrete sample inputs (used by witnesses and counterexamples) -/

/-- A plain step with a name and department. -/
def mkStep (n d : String) : Step :=
  { name := n, department := d, isDecision := false, branches := [] }

/-- A decision step with one branch. -/
def mkDecision (n d lbl tgt : String) : Step :=
  { name := n, department := d, isDecision := true,
    branches := [{ label := lbl, target := tgt }] }

/-- A process from steps and handoffs only (all optional texts absent). -/
def mkProcess (ss : List Step) (hs : List Handoff) : Process :=
  { steps := ss, handoffs := hs, defStartsWhen := "", startsWhen := "",
    defCompletesWhen := "", completesWhen := "", bottleneckLongestStep := none }

/-- Three steps whose decision branch targets "Step 3". -/
def pNum : Process :=
  mkProcess [mkStep "Receive" "Sales", mkDecision "Decide" "Sales" "Yes" "Step 3",
             mkStep "Ship" "Operations"] []

/-- Three steps: a step literally named "Approval", then a decision whose
branch target is the free text "Approval". -/
def pApproval : Process :=
  mkProcess [mkStep "Approval" "Sales", mkDecision "Decide" "Sales" "Yes" "Approval",
             mkStep "Ship" "Operations"] []

/-- Three steps whose decision branch targets the out-of-range "Step 99". -/
def pUnres : Process :=
  mkProcess [mkStep "Receive" "Sales", mkDecision "Decide" "Sales" "No" "Step 99",
             mkStep "Ship" "Sales"] []

/-- A single-step process (below the spec's minimum of 3 steps). -/
def pOneStep : Process := mkProcess [mkStep "Only" "Sales"] []

/-- A decision step with an empty branch list. -/
def stepEmptyBranches : Step :=
  { name := "Decide", department := "Sales", isDecision := true, branches := [] }

/-- Three steps whose middle step is a decision with no branches. -/
def pEmptyBranch : Process :=
  mkProcess [mkStep "Receive" "Sales", stepEmptyBranches, mkStep "Ship" "Sales"] []

/-- Base process for the styling-only claim. -/
def pFrameA : Process :=
  mkProcess [mkStep "Receive" "Sales", mkStep "Check" "Finance", mkStep "Ship" "Operations"]
    [{ method := "email", clarity := "no" }, { method := "call", clarity := "no" }]

/-- Same steps as `pFrameA`, different handoffs and a bottleneck index. -/
def pFrameB : Process :=
  { steps := [mkStep "Receive" "Sales", mkStep "Check" "Finance", mkStep "Ship" "Operations"],
    handoffs := [{ method := "shared-doc", clarity := "yes-major" }],
    defStartsWhen := "", startsWhen := "", defCompletesWhen := "", completesWhen := "",
    bottleneckLongestStep := some "step-1" }

/-- Nine steps, all in the same department. -/
def steps9 : List Step :=
  [mkStep "T1" "Sales", mkStep "T2" "Sales", mkStep "T3" "Sales", mkStep "T4" "Sales",
   mkStep "T5" "Sales", mkStep "T6" "Sales", mkStep "T7" "Sales", mkStep "T8" "Sales",
   mkStep "T9" "Sales"]

/-- The nine-step single-department process. -/
def p9 : Process := mkProcess steps9 []

/-! # Helper lemmas -/

lemma escList_length_le (cs : List Char) : (escList cs).length ≤ 50 := by
  unfold escList trimChars
  simp only [List.length_reverse]
  refine le_trans (List.dropWhile_suffix _).sublist.length_le ?_
  simp only [List.length_reverse]
  refine le_trans (List.dropWhile_suffix _).sublist.length_le ?_
  rw [List.length_take]
  exact inf_le_left

lemma mem_escList (c : Char) (cs : List Char) (h : c ∈ escList cs) :
    ∃ c0, c = repNewline (repBracket (repQuote c0)) := by
  unfold escList trimChars at h
  rw [List.mem_reverse] at h
  have h2 := (List.dropWhile_suffix _).subset h
  rw [List.mem_reverse] at h2
  have h3 := (List.dropWhile_suffix _).subset h2
  have h4 := List.take_subset _ _ h3
  simp only [List.mem_map] at h4
  obtain ⟨a, ⟨b, ⟨c0, _, rfl⟩, rfl⟩, rfl⟩ := h4
  exact ⟨c0, rfl⟩

lemma goodChar_composite (c0 : Char) :
    repNewline (repBracket (repQuote c0)) ≠ dquote
    ∧ repNewline (repBracket (repQuote c0)) ≠ '\n'
    ∧ repNewline (repBracket (repQuote c0)) ∉ bracketChars := by
  unfold repQuote repBracket repNewline
  split_ifs with h1 h2 h3 h4 h5 h6 h7 <;>
    refine ⟨?_, ?_, ?_⟩ <;> first | decide | assumption

lemma escMermaid_sanitized (s : String) :
    (escMermaid s).length ≤ 50
    ∧ ∀ c ∈ (escMermaid s).data, c ≠ dquote ∧ c ≠ '\n' ∧ c ∉ bracketChars := by
  refine ⟨escList_length_le _, fun c hc => ?_⟩
  obtain ⟨c0, rfl⟩ := mem_escList c s.data hc
  exact goodChar_composite c0

lemma invLinks_shape (pfx : String) (ms : List (Step × Nat)) :
    ∀ l ∈ invLinks pfx ms, ∃ a b, l = Line.invLink pfx a b := by
  induction ms with
  | nil => simp [invLinks]
  | cons a t ih =>
    cases t with
    | nil => simp [invLinks]
    | cons b t2 =>
      intro l hl
      unfold invLinks at hl
      rw [List.mem_append] at hl
      rcases hl with hl | hl
      · split_ifs at hl <;> simp at hl
        exact ⟨a.2, b.2, hl⟩
      · exact ih l hl

lemma laneLines_labels (mc : ModuleConsts) (pfx d : String) (ms : List (Step × Nat)) :
    ∀ l ∈ laneLines mc pfx d ms, ∀ lab ∈ lineLabels l, escImage lab := by
  intro l hl lab hlab
  unfold laneLines at hl
  simp only [List.mem_append] at hl
  rcases hl with ((h1 | h2) | h3) | h4
  · simp only [List.mem_cons, List.not_mem_nil, or_false] at h1
    rcases h1 with rfl | rfl
    · simp only [lineLabels, List.mem_singleton] at hlab
      exact ⟨d, hlab⟩
    · simp [lineLabels] at hlab
  · rw [List.mem_map] at h2
    obtain ⟨x, _, rfl⟩ := h2
    simp only [lineLabels, List.mem_singleton] at hlab
    exact ⟨x.1.name, hlab⟩
  · obtain ⟨a, b, rfl⟩ := invLinks_shape pfx ms l h3
    simp [lineLabels] at hlab
  · simp only [List.mem_cons, List.not_mem_nil, or_false] at h4
    rcases h4 with rfl | rfl
    · simp [lineLabels] at hlab
    · simp [lineLabels] at hlab

lemma seqEmit_labels (pfx : String) (steps : List Step) (hs : List Handoff) (i : Nat) (s : Step)
    (l : Line) (h : seqEmit pfx steps hs i s = some l) :
    ∀ lab ∈ lineLabels l, escImage lab := by
  intro lab hlab
  cases hget : hs.get? i with
  | none =>
    simp only [seqEmit, hget] at h
    split_ifs at h
    simp only [Option.some.injEq] at h
    subst h
    simp [lineLabels] at hlab
  | some ho =>
    simp only [seqEmit, hget] at h
    split_ifs at h <;> simp only [Option.some.injEq] at h <;> subst h <;>
      simp only [lineLabels, List.mem_singleton, List.not_mem_nil] at hlab
    · exact ⟨_, hlab⟩
    · exact ⟨_, hlab⟩

lemma branchArrowFor_labels (pfx : String) (n i : Nat) (br : Branch) :
    ∀ lab ∈ lineLabels (branchArrowFor pfx n i br), escImage lab := by
  intro lab hlab
  unfold branchArrowFor at hlab
  split_ifs at hlab <;>
  · unfold brKind at hlab
    split_ifs at hlab <;> simp only [lineLabels, List.mem_singleton, List.not_mem_nil] at hlab
    exact ⟨br.label, hlab⟩

lemma bottleneckLines_shape (pfx : String) (steps : List Step) (b : Option String) :
    ∀ l ∈ bottleneckLines pfx steps b, ∃ num, l = Line.styleStep pfx num bottleneckCss := by
  intro l hl
  cases b with
  | none => simp [bottleneckLines] at hl
  | some ls =>
    simp only [bottleneckLines] at hl
    split_ifs at hl with h1
    · cases hp : parseIntJS (String.mk (replaceFirstL "step-".data [] ls.data)) with
      | none => rw [hp] at hl; simp at hl
      | some idx =>
        rw [hp] at hl
        dsimp only at hl
        split_ifs at hl <;> simp at hl
        exact ⟨_, hl⟩
    · simp at hl

lemma processLines_labels (mc : ModuleConsts) (total pi : Nat) (p : Process) :
    ∀ l ∈ processLines mc total pi p, ∀ lab ∈ lineLabels l, escImage lab := by
  intro l hl lab hlab
  unfold processLines at hl
  split_ifs at hl with h0
  · simp at hl
  · simp only [List.mem_append] at hl
    rcases hl with ((((((hl | hl) | hl) | hl) | hl) | hl) | hl) | hl
    · rw [List.mem_flatMap] at hl
      obtain ⟨lane, _, hmem⟩ := hl
      exact laneLines_labels mc _ lane.1 lane.2 l hmem lab hlab
    · simp only [List.mem_cons, List.not_mem_nil, or_false] at hl
      rcases hl with rfl | rfl | rfl
      · simp only [lineLabels, List.mem_singleton] at hlab
        exact ⟨_, hlab⟩
      · simp [lineLabels] at hlab
      · simp [lineLabels] at hlab
    · unfold seqLines at hl
      rw [List.mem_filterMap] at hl
      obtain ⟨x, _, hx⟩ := hl
      exact seqEmit_labels _ _ _ _ _ _ hx lab hlab
    · unfold branchLines at hl
      rw [List.mem_flatMap] at hl
      obtain ⟨x, _, hmem⟩ := hl
      unfold branchLinesFor at hmem
      split_ifs at hmem
      · rw [List.mem_map] at hmem
        obtain ⟨br, _, rfl⟩ := hmem
        exact branchArrowFor_labels _ _ _ br lab hlab
      · simp at hmem
    · unfold endLines at hl
      split_ifs at hl <;> simp only [List.mem_singleton] at hl <;> subst hl <;>
        simp only [lineLabels, List.mem_singleton] at hlab <;> exact ⟨_, hlab⟩
    · simp only [List.mem_singleton] at hl
      subst hl
      simp [lineLabels] at hlab
    · obtain ⟨num, rfl⟩ := bottleneckLines_shape _ _ _ l hl
      simp [lineLabels] at hlab
    · unfold emphasisLines at hl
      rw [List.mem_flatMap] at hl
      obtain ⟨x, _, hmem⟩ := hl
      split_ifs at hmem <;> simp only [List.mem_singleton, List.not_mem_nil] at hmem <;>
        subst hmem <;> simp [lineLabels] at hlab

lemma emitLines_labels (ps : List Process) :
    ∀ l ∈ emitLines ps, ∀ lab ∈ lineLabels l, escImage lab := by
  intro l hl lab hlab
  unfold emitLines emitLinesWith at hl
  rw [List.mem_flatMap] at hl
  obtain ⟨x, _, hmem⟩ := hl
  exact processLines_labels _ _ _ _ l hmem lab hlab

lemma takeWhile_append_all (p : Char → Bool) (l r : List Char) (h : ∀ c ∈ l, p c = true) :
    (l ++ r).takeWhile p = l ++ r.takeWhile p := by
  induction l with
  | nil => simp
  | cons c t ih =>
    simp only [List.cons_append, List.takeWhile_cons]
    rw [if_pos (h c (List.mem_cons_self c t)), ih (fun c' hc' => h c' (List.mem_cons_of_mem _ hc'))]

lemma takeWhile_nil_head (p : Char → Bool) (r : List Char)
    (h : ∀ c, r.head? = some c → p c = false) : r.takeWhile p = [] := by
  cases r with
  | nil => rfl
  | cons c t => simp [List.takeWhile_cons, h c rfl]

lemma fdr_append (pre ds suf : List Char) (hpre : ∀ c ∈ pre, c.isDigit = false)
    (hne : ds ≠ []) (hds : ∀ c ∈ ds, c.isDigit = true)
    (hsuf : ∀ c, suf.head? = some c → c.isDigit = false) :
    firstDigitRun (pre ++ ds ++ suf) = some ds := by
  induction pre with
  | nil =>
    cases ds with
    | nil => exact absurd rfl hne
    | cons d dt =>
      simp only [List.nil_append, List.cons_append, firstDigitRun]
      rw [if_pos (hds d (List.mem_cons_self d dt))]
      show some (d :: List.takeWhile Char.isDigit (dt ++ suf)) = some (d :: dt)
      rw [takeWhile_append_all _ dt suf (fun c hc => hds c (List.mem_cons_of_mem _ hc)),
          takeWhile_nil_head _ suf hsuf, List.append_nil]
  | cons c pt ih =>
    simp only [List.cons_append, firstDigitRun]
    rw [if_neg (by simp [hpre c (List.mem_cons_self c pt)])]
    exact ih (fun c' hc' => hpre c' (List.mem_cons_of_mem _ hc'))

lemma fdr_none (l : List Char) (h : ∀ c ∈ l, c.isDigit = false) : firstDigitRun l = none := by
  induction l with
  | nil => rfl
  | cons c t ih =>
    simp only [firstDigitRun]
    rw [if_neg (by simp [h c (List.mem_cons_self c t)])]
    exact ih (fun c' hc' => h c' (List.mem_cons_of_mem _ hc'))

lemma renderAll_aux (l : List Line) (b : String) :
    l.foldr (fun x acc => renderLine x ++ acc) b = renderAll l ++ b := by
  induction l with
  | nil =>
    show b = renderAll [] ++ b
    rw [show renderAll [] = "" from rfl, String.empty_append]
  | cons a t ih =>
    show renderLine a ++ _ = _
    rw [ih]
    show _ = (renderLine a ++ renderAll t) ++ b
    rw [String.append_assoc]

lemma renderAll_append (l1 l2 : List Line) :
    renderAll (l1 ++ l2) = renderAll l1 ++ renderAll l2 := by
  unfold renderAll
  rw [List.foldr_append]
  exact renderAll_aux l1 _

lemma mem_emit_substring (mc : ModuleConsts) (ps : List Process) (line : Line)
    (h : line ∈ emitLinesWith mc ps) :
    ∃ a b, generateMermaidCodeWith mc ps = a ++ renderLine line ++ b := by
  obtain ⟨u, v, huv⟩ := List.append_of_mem h
  refine ⟨"graph TB\n" ++ renderAll u, renderAll v, ?_⟩
  unfold generateMermaidCodeWith
  rw [huv, renderAll_append]
  rw [show renderAll (line :: v) = renderLine line ++ renderAll v from rfl]
  simp only [String.append_assoc]

lemma emitLines_singleton (p : Process) : emitLines [p] = processLines defaultConsts 1 0 p := by
  unfold emitLines emitLinesWith
  rw [show List.enum [p] = [(0, p)] from rfl]
  simp

lemma branchArrow_mem (p : Process) (i : Nat) (s : Step) (br : Branch)
    (hget : p.steps[i]? = some s) (hdec : isDecisionNode s = true) (hbr : br ∈ s.branches) :
    branchArrowFor "" p.steps.length i br ∈ emitLines [p] := by
  have hi : i < p.steps.length := (List.getElem?_eq_some.mp hget).1
  rw [emitLines_singleton]
  unfold processLines
  rw [if_neg (by omega)]
  rw [show pfxOf 1 0 = "" from rfl]
  simp only [List.mem_append]
  refine Or.inl (Or.inl (Or.inl (Or.inl (Or.inr ?_))))
  unfold branchLines
  rw [List.mem_flatMap]
  refine ⟨(i, s), List.mem_enum_iff_getElem?.mpr hget, ?_⟩
  unfold branchLinesFor
  rw [if_pos hdec, List.mem_map]
  exact ⟨br, hbr, rfl⟩

/-! # Claim theorems -/

/-- C1: Determinism of the diagram engine.  The module state (the color
tables, the only values `generateMermaidCode` reads besides its argument)
is threaded explicitly; a second call starting from the state left by a
first call on the same input produces character-for-character the same
output string and leaves the state unchanged, and the entry point equals
the first component of the stateful call on the initial module state. -/
theorem generateMermaidCode_deterministic (mc : ModuleConsts) (ps : List Process) :
    (generateMermaidCodeSt (generateMermaidCodeSt mc ps).2 ps).1 = (generateMermaidCodeSt mc ps).1
    ∧ (generateMermaidCodeSt (generateMermaidCodeSt mc ps).2 ps).2 = (generateMermaidCodeSt mc ps).2
    ∧ generateMermaidCode ps = (generateMermaidCodeSt defaultConsts ps).1 :=
  ⟨rfl, rfl, rfl⟩

/-- C10: every node, subgraph, arrow, start or done label embedded in the
generated diagram is the image of the escape function `escMermaid`, hence
contains no double quote, no newline, none of the characters
`[ ] \x7b \x7d ( ) # &`, and is at most 50 characters long. -/
theorem emitted_labels_sanitized (ps : List Process) (l : Line) (lab : String)
    (hl : l ∈ emitLines ps) (hlab : lab ∈ lineLabels l) :
    lab.length ≤ 50 ∧ ∀ c ∈ lab.data, c ≠ dquote ∧ c ≠ '\n' ∧ c ∉ bracketChars := by
  obtain ⟨s, rfl⟩ := emitLines_labels ps l hl lab hlab
  exact escMermaid_sanitized s

/-- Witness for C10 at a concrete input: the decision-step node label of
`pUnres` appears in the emitted lines and satisfies the sanitization
bounds. -/
theorem emitted_labels_sanitized_witness :
    "Decide".length ≤ 50
    ∧ ∀ c ∈ "Decide".data, c ≠ dquote ∧ c ≠ '\n' ∧ c ∉ bracketChars :=
  emitted_labels_sanitized [pUnres] (Line.nodeDef "" 2 Shape.diamond "Decide") "Decide"
    (by decide) (by decide)

/-- C2: numeric branch-target resolution.  For a branch of a decision step
whose target's first digit run spells the number `N = digitsToNat ds` with
`1 ≤ N ≤` step count, `resolveBranchTarget` returns `N - 1`, and the
engine emits the branch arrow from the decision node `S(i+1)` to that
step's node `S N`, which appears verbatim in the generated text. -/
theorem numeric_branch_resolution (p : Process) (i : Nat) (s : Step) (br : Branch)
    (pre ds suf : List Char)
    (hget : p.steps[i]? = some s)
    (hdec : isDecisionNode s = true)
    (hbr : br ∈ s.branches)
    (htgt : br.target.data = pre ++ ds ++ suf)
    (hpre : ∀ c ∈ pre, c.isDigit = false)
    (hne : ds ≠ [])
    (hds : ∀ c ∈ ds, c.isDigit = true)
    (hsuf : ∀ c, suf.head? = some c → c.isDigit = false)
    (hlo : 1 ≤ digitsToNat ds)
    (hhi : digitsToNat ds ≤ p.steps.length) :
    resolveBranchTarget br.target = (digitsToNat ds : Int) - 1
    ∧ Line.arrow (brKind br) (NodeRef.step "" (i + 1)) (NodeRef.step "" (digitsToNat ds))
        ∈ emitLines [p]
    ∧ ∃ a b, generateMermaidCode [p]
        = a ++ renderLine (Line.arrow (brKind br) (NodeRef.step "" (i + 1))
            (NodeRef.step "" (digitsToNat ds))) ++ b := by
  have htne : br.target ≠ "" := by
    intro h0
    rw [h0] at htgt
    have h1 : pre ++ ds ++ suf = ([] : List Char) := htgt.symm
    rw [List.append_eq_nil, List.append_eq_nil] at h1
    exact hne h1.1.2
  have hres : resolveBranchTarget br.target = (digitsToNat ds : Int) - 1 := by
    unfold resolveBranchTarget
    rw [if_neg htne, htgt, fdr_append pre ds suf hpre hne hds hsuf]
  have harrow : branchArrowFor "" p.steps.length i br
      = Line.arrow (brKind br) (NodeRef.step "" (i + 1)) (NodeRef.step "" (digitsToNat ds)) := by
    unfold branchArrowFor
    rw [hres, if_pos (by constructor <;> [omega; (push_cast; omega)])]
    have h2 : ((digitsToNat ds : Int) - 1).toNat + 1 = digitsToNat ds := by omega
    rw [h2]
  have hmem := branchArrow_mem p i s br hget hdec hbr
  rw [harrow] at hmem
  exact ⟨hres, hmem, mem_emit_substring defaultConsts [p] _ hmem⟩

/-- Witness for C2: in `pNum` the decision at index 1 has a branch
targeting "Step 3"; it resolves to index 2 and the arrow `S2 --> S3`
is emitted. -/
theorem numeric_branch_resolution_witness :
    resolveBranchTarget "Step 3" = (digitsToNat ['3'] : Int) - 1
    ∧ Line.arrow (brKind { label := "Yes", target := "Step 3" }) (NodeRef.step "" 2)
        (NodeRef.step "" (digitsToNat ['3'])) ∈ emitLines [pNum]
    ∧ ∃ a b, generateMermaidCode [pNum]
        = a ++ renderLine (Line.arrow (brKind { label := "Yes", target := "Step 3" })
            (NodeRef.step "" 2) (NodeRef.step "" (digitsToNat ['3']))) ++ b :=
  numeric_branch_resolution pNum 1 (mkDecision "Decide" "Sales" "Yes" "Step 3")
    { label := "Yes", target := "Step 3" } "Step ".data ['3'] []
    (by decide) (by decide) (by decide) (by decide) (by decide) (by decide)
    (by decide) (by decide) (by decide) (by decide)

/-- C3 counterexample: the claim says a digit-free branch target is
matched case-insensitively against step names.  In `pApproval` step 1 is
literally named "Approval" and the decision branch targets "Approval",
yet `resolveBranchTarget` returns `-1` (it never consults step names) and
the engine draws the branch arrow to the `DONE` terminal, not to `S1`. -/
theorem freetext_resolution_counterexample :
    resolveBranchTarget "Approval" = -1
    ∧ (pApproval.steps[0]?).map Step.name = some "Approval"
    ∧ containsSub (lowerData "Approval") ("approval".data) = true
    ∧ branchArrowFor "" 3 1 { label := "Yes", target := "Approval" }
        = Line.arrow (ArrowKind.labeled "Yes") (NodeRef.step "" 2) (NodeRef.done "")
    ∧ Line.arrow (ArrowKind.labeled "Yes") (NodeRef.step "" 2) (NodeRef.done "")
        ∈ emitLines [pApproval]
    ∧ Line.arrow (ArrowKind.labeled "Yes") (NodeRef.step "" 2) (NodeRef.step "" 1)
        ∉ emitLines [pApproval] := by
  exact ⟨by decide, by decide, by decide, by decide, by decide, by decide⟩

/-- C3 amended: a branch target containing no digit character always
resolves to `-1` (unresolved) regardless of the step names, and its
branch arrow is drawn to the `DONE` terminal. -/
theorem freetext_resolution_amended (t : String) (h : ∀ c ∈ t.data, c.isDigit = false) :
    resolveBranchTarget t = -1
    ∧ ∀ (pfx : String) (n i : Nat) (br : Branch), br.target = t →
        branchArrowFor pfx n i br
          = Line.arrow (brKind br) (NodeRef.step pfx (i + 1)) (NodeRef.done pfx) := by
  have hres : resolveBranchTarget t = -1 := by
    unfold resolveBranchTarget
    split_ifs with h0
    · rfl
    · rw [fdr_none t.data h]
  refine ⟨hres, fun pfx n i br hbr => ?_⟩
  unfold branchArrowFor
  rw [hbr, hres, if_neg (by omega)]

/-- Witness for the amended C3 at a concrete branch. -/
theorem freetext_resolution_amended_witness :
    resolveBranchTarget "Approval" = -1
    ∧ branchArrowFor "X" 5 2 { label := "Yes", target := "Approval" }
      = Line.arrow (brKind { label := "Yes", target := "Approval" })
          (NodeRef.step "X" 3) (NodeRef.done "X") :=
  ⟨(freetext_resolution_amended "Approval" (by decide)).1,
   (freetext_resolution_amended "Approval" (by decide)).2 "X" 5 2
     { label := "Yes", target := "Approval" } rfl⟩

/-- C5 counterexample: an out-of-range branch target ("Step 99" in a
3-step process) does route to the terminal `DONE` node and generation does
not fail, but nothing is flagged: the engine's entire output is the bare
Mermaid string below, which contains the routed arrow and no warning or
unresolved-branch marker of any kind. -/
theorem unresolved_branch_counterexample :
    resolveBranchTarget "Step 99" = 98
    ∧ (handlerValidate (some [pUnres])).isOk = true
    ∧ Line.arrow (ArrowKind.labeled "No") (NodeRef.step "" 2) (NodeRef.done "")
        ∈ emitLines [pUnres]
    ∧ generateMermaidCode [pUnres]
        = "graph TB\n\n    subgraph Sales[\"  Sales  \"]\n        direction LR\n        S1[\"Receive\"]\n        S2\x7b\"Decide\"\x7d\n        S3[\"Ship\"]\n    end\n    style Sales fill:#dbeafe,stroke:#3b82f6,stroke-width:2px,color:#1e293b\n\n    START([\"Start\"])\n    START --> S1\n    style START fill:#d1fae5,stroke:#059669,stroke-width:2px,color:#064e3b\n    S1 --> S2\n    S2 -->|\"No\"| DONE\n\n    S3 --> DONE([\"Complete\"])\n    style DONE fill:#d1fae5,stroke:#059669,stroke-width:2px,color:#064e3b\n    style S2 fill:#ede9fe,stroke:#7c3aed,stroke-width:2px,color:#5b21b6\n" := by
  exact ⟨by decide, by decide, by decide, rfl⟩

/-- C5 amended: a branch whose resolved target lies outside `[0, n)` is
routed to the synthetic terminal `DONE` node and generation does not fail;
no flag or warning accompanies it in the output. -/
theorem unresolved_branch_amended (pfx : String) (n i : Nat) (br : Branch)
    (h : resolveBranchTarget br.target < 0 ∨ (n : Int) ≤ resolveBranchTarget br.target) :
    branchArrowFor pfx n i br
      = Line.arrow (brKind br) (NodeRef.step pfx (i + 1)) (NodeRef.done pfx) := by
  unfold branchArrowFor
  rw [if_neg (by omega)]

/-- Witness for the amended C5 at the concrete out-of-range branch. -/
theorem unresolved_branch_amended_witness :
    branchArrowFor "" 3 1 { label := "No", target := "Step 99" }
      = Line.arrow (brKind { label := "No", target := "Step 99" })
          (NodeRef.step "" 2) (NodeRef.done "") :=
  unresolved_branch_amended "" 3 1 { label := "No", target := "Step 99" } (by right; decide)

/-- C6 counterexample: the claim says inputs with fewer than 3 steps, or a
decision step with an empty branch list, are rejected with a structured
validation error before layout.  The handler accepts a 1-step process and
a process whose middle step is a decision with no branches; both are
silently rendered, the empty-branch decision as a plain rectangle node. -/
theorem degenerate_input_counterexample :
    (handlerValidate (some [pOneStep])).isOk = true
    ∧ (handlerValidate (some [pEmptyBranch])).isOk = true
    ∧ isDecisionNode stepEmptyBranches = false
    ∧ Line.nodeDef "" 2 Shape.rect "Decide" ∈ emitLines [pEmptyBranch] := by
  exact ⟨by decide, by decide, by decide, by decide⟩

/-- C6 amended: the only rejection is for a missing or empty process
list (the handler's 400 "No process data provided"); any non-empty
process list — however degenerate — is accepted and rendered. -/
theorem degenerate_input_amended (ps : List Process) :
    handlerValidate none = Except.error "No process data provided"
    ∧ (ps = [] → handlerValidate (some ps) = Except.error "No process data provided")
    ∧ (ps ≠ [] → handlerValidate (some ps) = Except.ok (generateMermaidCode ps)) := by
  refine ⟨rfl, ?_, ?_⟩
  · intro h
    subst h
    rfl
  · intro h
    simp [handlerValidate, List.length_eq_zero, h]

/-- Witness for the amended C6 at concrete inputs. -/
theorem degenerate_input_amended_witness :
    handlerValidate none = Except.error "No process data provided"
    ∧ handlerValidate (some [pOneStep]) = Except.ok (generateMermaidCode [pOneStep]) :=
  ⟨(degenerate_input_amended [pOneStep]).1,
   (degenerate_input_amended [pOneStep]).2.2 (by decide)⟩

/-- C4: edge emission rule.  A decision step emits no sequential arrow
and exactly one branch arrow per branch; a non-decision, non-last step
emits exactly one sequential arrow to index `i+1` (node `S(i+2)`); the
last step emits no sequential arrow, and connects to the terminal `DONE`
node exactly when it is not a decision. -/
theorem edge_emission_rule (pfx : String) (steps : List Step) (handoffs : List Handoff)
    (i : Nat) (s : Step) (c : String) (hget : steps[i]? = some s) :
    (isDecisionNode s = true →
        seqEmit pfx steps handoffs i s = none
        ∧ branchLinesFor pfx steps.length i s
            = s.branches.map (branchArrowFor pfx steps.length i)
        ∧ (branchLinesFor pfx steps.length i s).length = s.branches.length)
    ∧ (isDecisionNode s = false → i + 1 < steps.length →
        ∃ k, seqEmit pfx steps handoffs i s
          = some (Line.arrow k (NodeRef.step pfx (i + 1)) (NodeRef.step pfx (i + 2))))
    ∧ (i + 1 = steps.length →
        seqEmit pfx steps handoffs i s = none
        ∧ (isDecisionNode s = false →
            endLines pfx steps c = [Line.doneArrow pfx steps.length c])
        ∧ (isDecisionNode s = true →
            endLines pfx steps c = [Line.doneNode pfx c])) := by
  have hlast : i + 1 = steps.length → steps.getD (steps.length - 1) defaultStep = s := by
    intro hl
    have hidx : steps.length - 1 = i := by omega
    rw [List.getD_eq_getElem?_getD, hidx, hget]
    rfl
  refine ⟨fun hdec => ⟨?_, ?_, ?_⟩, fun hdec hlt => ?_, fun hl => ⟨?_, fun hdec => ?_, fun hdec => ?_⟩⟩
  · unfold seqEmit
    rw [if_neg (by simp [hdec])]
  · unfold branchLinesFor
    rw [if_pos hdec]
  · unfold branchLinesFor
    rw [if_pos hdec, List.length_map]
  · unfold seqEmit
    rw [if_pos ⟨hlt, by simp [hdec]⟩]
    cases hh : handoffs.get? i with
    | none => exact ⟨ArrowKind.plain, rfl⟩
    | some ho =>
      dsimp only
      split_ifs <;> exact ⟨_, rfl⟩
  · unfold seqEmit
    rw [if_neg (by omega)]
  · unfold endLines
    rw [hlast hl, if_neg (by simp [hdec])]
  · unfold endLines
    rw [hlast hl, if_pos hdec]

/-- Witness for C4 on `pNum`: the decision at index 1 emits no sequential
arrow, index 0 emits exactly one sequential arrow `S1 --> S2`, and the
non-decision last step connects to `DONE`. -/
theorem edge_emission_rule_witness :
    seqEmit "" pNum.steps [] 1 (mkDecision "Decide" "Sales" "Yes" "Step 3") = none
    ∧ (∃ k, seqEmit "" pNum.steps [] 0 (mkStep "Receive" "Sales")
        = some (Line.arrow k (NodeRef.step "" 1) (NodeRef.step "" 2)))
    ∧ endLines "" pNum.steps "Complete" = [Line.doneArrow "" pNum.steps.length "Complete"] :=
  ⟨((edge_emission_rule "" pNum.steps [] 1 (mkDecision "Decide" "Sales" "Yes" "Step 3")
      "Complete" (by decide)).1 (by decide)).1,
   (edge_emission_rule "" pNum.steps [] 0 (mkStep "Receive" "Sales")
      "Complete" (by decide)).2.1 (by decide) (by decide),
   ((edge_emission_rule "" pNum.steps [] 2 (mkStep "Ship" "Operations")
      "Complete" (by decide)).2.2 (by decide)).2.1 (by decide)⟩

lemma seqEmit_bind_arrowEnds (pfx : String) (steps : List Step) (hs : List Handoff)
    (i : Nat) (s : Step) :
    (seqEmit pfx steps hs i s).bind arrowEnds
      = if i + 1 < steps.length ∧ ¬ isDecisionNode s
        then some (NodeRef.step pfx (i + 1), NodeRef.step pfx (i + 2)) else none := by
  unfold seqEmit
  split_ifs with h
  · cases hh : hs.get? i with
    | none => rfl
    | some ho =>
      dsimp only
      split_ifs <;> rfl
  · rfl

lemma seqEmit_shape (pfx : String) (steps : List Step) (hs : List Handoff) (i : Nat) (s : Step)
    (l : Line) (h : seqEmit pfx steps hs i s = some l) : ∃ k a b, l = Line.arrow k a b := by
  unfold seqEmit at h
  split_ifs at h
  cases hh : hs.get? i with
  | none =>
    rw [hh] at h
    exact ⟨_, _, _, (Option.some.injEq _ _ ▸ h).symm⟩
  | some ho =>
    rw [hh] at h
    dsimp only at h
    split_ifs at h <;> exact ⟨_, _, _, (Option.some.injEq _ _ ▸ h).symm⟩

lemma branchArrowFor_shape (pfx : String) (n i : Nat) (br : Branch) :
    ∃ k a b, branchArrowFor pfx n i br = Line.arrow k a b := by
  unfold branchArrowFor
  split_ifs <;> exact ⟨_, _, _, rfl⟩

lemma seqLines_arrowEnds (pfx : String) (steps : List Step) (h h' : List Handoff) :
    (seqLines pfx steps h).filterMap arrowEnds = (seqLines pfx steps h').filterMap arrowEnds := by
  unfold seqLines
  rw [List.filterMap_filterMap, List.filterMap_filterMap]
  congr 1
  funext x
  rw [seqEmit_bind_arrowEnds, seqEmit_bind_arrowEnds]

lemma seqLines_nodeIds (pfx : String) (steps : List Step) (h : List Handoff) :
    (seqLines pfx steps h).flatMap nodeIds = [] := by
  rw [List.flatMap_eq_nil_iff]
  intro l hl
  unfold seqLines at hl
  rw [List.mem_filterMap] at hl
  obtain ⟨x, _, hx⟩ := hl
  obtain ⟨k, a, b, rfl⟩ := seqEmit_shape _ _ _ _ _ _ hx
  rfl

lemma bottleneckLines_arrowEnds (pfx : String) (steps : List Step) (b : Option String) :
    (bottleneckLines pfx steps b).filterMap arrowEnds = [] := by
  rw [List.filterMap_eq_nil_iff]
  intro l hl
  obtain ⟨num, rfl⟩ := bottleneckLines_shape pfx steps b l hl
  rfl

lemma bottleneckLines_nodeIds (pfx : String) (steps : List Step) (b : Option String) :
    (bottleneckLines pfx steps b).flatMap nodeIds = [] := by
  rw [List.flatMap_eq_nil_iff]
  intro l hl
  obtain ⟨num, rfl⟩ := bottleneckLines_shape pfx steps b l hl
  rfl

lemma processLines_frame (mc : ModuleConsts) (total pi : Nat) (p p' : Process)
    (hrel : frameRel p p') :
    (processLines mc total pi p).filterMap arrowEnds
        = (processLines mc total pi p').filterMap arrowEnds
    ∧ (processLines mc total pi p).flatMap nodeIds
        = (processLines mc total pi p').flatMap nodeIds := by
  obtain ⟨hsteps, hds, hs, hdc, hc⟩ := hrel
  have hsw : startsWhenOf p = startsWhenOf p' := by unfold startsWhenOf; rw [hds, hs]
  have hcw : completesWhenOf p = completesWhenOf p' := by unfold completesWhenOf; rw [hdc, hc]
  unfold processLines
  rw [← hsteps, ← hsw, ← hcw]
  split_ifs with h0
  · exact ⟨rfl, rfl⟩
  · constructor
    · simp only [List.filterMap_append]
      rw [seqLines_arrowEnds (pfxOf total pi) p.steps p.handoffs p'.handoffs,
          bottleneckLines_arrowEnds (pfxOf total pi) p.steps p.bottleneckLongestStep,
          bottleneckLines_arrowEnds (pfxOf total pi) p.steps p'.bottleneckLongestStep]
    · simp only [List.flatMap_append]
      rw [seqLines_nodeIds (pfxOf total pi) p.steps p.handoffs,
          seqLines_nodeIds (pfxOf total pi) p.steps p'.handoffs,
          bottleneckLines_nodeIds (pfxOf total pi) p.steps p.bottleneckLongestStep,
          bottleneckLines_nodeIds (pfxOf total pi) p.steps p'.bottleneckLongestStep]

lemma emit_frame_aux (mc : ModuleConsts) (ps ps' : List Process)
    (h : List.Forall₂ frameRel ps ps') : ∀ (total k : Nat),
    ((List.enumFrom k ps).flatMap (fun x => processLines mc total x.1 x.2)).filterMap arrowEnds
      = ((List.enumFrom k ps').flatMap (fun x => processLines mc total x.1 x.2)).filterMap
          arrowEnds
    ∧ ((List.enumFrom k ps).flatMap (fun x => processLines mc total x.1 x.2)).flatMap nodeIds
      = ((List.enumFrom k ps').flatMap (fun x => processLines mc total x.1 x.2)).flatMap
          nodeIds := by
  induction h with
  | nil => exact fun total k => ⟨rfl, rfl⟩
  | @cons p p' t t' hrel htail ih =>
    intro total k
    simp only [List.enumFrom_cons, List.flatMap_cons, List.filterMap_append, List.flatMap_append]
    have hp := processLines_frame mc total k p p' hrel
    rw [hp.1, hp.2, (ih total (k + 1)).1, (ih total (k + 1)).2]
    exact ⟨rfl, rfl⟩

/-- C7: handoffs and the bottleneck index are styling-only.  Two process
lists with the same steps and start/complete texts, differing only in
handoff entries and bottleneck indices, emit the same node identities and
the same `(from, to)` connection list — only arrow styling and style
directives can differ. -/
theorem annotations_styling_only (ps ps' : List Process)
    (h : List.Forall₂ frameRel ps ps') :
    (emitLines ps).filterMap arrowEnds = (emitLines ps').filterMap arrowEnds
    ∧ (emitLines ps).flatMap nodeIds = (emitLines ps').flatMap nodeIds := by
  have hlen : ps.length = ps'.length := h.length_eq
  unfold emitLines emitLinesWith
  rw [List.enum_eq_enumFrom, List.enum_eq_enumFrom, ← hlen]
  exact emit_frame_aux defaultConsts ps ps' h ps.length 0

/-- Witness for C7: `pFrameA`/`pFrameB` share steps but differ in all
handoffs and in the bottleneck; their emitted connections and node
identities coincide. -/
theorem annotations_styling_only_witness :
    (emitLines [pFrameA]).filterMap arrowEnds = (emitLines [pFrameB]).filterMap arrowEnds
    ∧ (emitLines [pFrameA]).flatMap nodeIds = (emitLines [pFrameB]).flatMap nodeIds :=
  annotations_styling_only [pFrameA] [pFrameB]
    (List.Forall₂.cons ⟨rfl, rfl, rfl, rfl, rfl⟩ List.Forall₂.nil)

lemma keyOrder_concat (ds : List String) (d : String) :
    keyOrder (ds ++ [d])
      = if d ∈ keyOrder ds then keyOrder ds else keyOrder ds ++ [d] := by
  unfold keyOrder
  rw [List.foldl_append]
  rfl

lemma mem_keyOrder_step (acc : List String) (d a : String) :
    a ∈ (if d ∈ acc then acc else acc ++ [d]) ↔ a ∈ acc ∨ a = d := by
  split_ifs with hd
  · constructor
    · exact Or.inl
    · rintro (h | rfl)
      · exact h
      · exact hd
  · simp [List.mem_append]

lemma mem_keyOrder_aux (ds : List String) : ∀ (acc : List String) (a : String),
    a ∈ ds.foldl (fun acc d => if d ∈ acc then acc else acc ++ [d]) acc ↔ a ∈ acc ∨ a ∈ ds := by
  induction ds with
  | nil => simp
  | cons d dt ih =>
    intro acc a
    rw [List.foldl_cons, ih, mem_keyOrder_step, List.mem_cons]
    tauto

lemma mem_keyOrder (ds : List String) (a : String) : a ∈ keyOrder ds ↔ a ∈ ds := by
  unfold keyOrder
  rw [mem_keyOrder_aux]
  simp

lemma keyOrder_nodup_aux (ds : List String) : ∀ (acc : List String), acc.Nodup →
    (ds.foldl (fun acc d => if d ∈ acc then acc else acc ++ [d]) acc).Nodup := by
  induction ds with
  | nil => exact fun acc h => h
  | cons d dt ih =>
    intro acc hacc
    rw [List.foldl_cons]
    refine ih _ ?_
    split_ifs with hd
    · exact hacc
    · rw [List.nodup_append]
      refine ⟨hacc, List.nodup_singleton d, fun a ha had => ?_⟩
      rw [List.mem_singleton] at had
      exact hd (had ▸ ha)

lemma keyOrder_nodup (ds : List String) : (keyOrder ds).Nodup :=
  keyOrder_nodup_aux ds [] List.nodup_nil

lemma addToLanes_map (keys : List String) (F : String → List (Step × Nat)) (d : String)
    (x : Step × Nat) (hnd : keys.Nodup) :
    addToLanes (keys.map (fun k => (k, F k))) d x
      = if d ∈ keys
        then keys.map (fun k => (k, if k = d then F k ++ [x] else F k))
        else keys.map (fun k => (k, F k)) ++ [(d, [x])] := by
  induction keys with
  | nil => simp [addToLanes]
  | cons k kt ih =>
    simp only [List.map_cons, addToLanes]
    by_cases hkd : k = d
    · rw [if_pos hkd, if_pos (List.mem_cons.mpr (Or.inl hkd.symm)), if_pos hkd]
      refine congrArg (List.cons _) ?_
      refine (List.map_congr_left (fun k' hk' => ?_)).symm
      have hne : ¬ k' = d := by
        intro he
        rw [he] at hk'
        rw [hkd] at hnd
        exact (List.nodup_cons.mp hnd).1 hk'
      rw [if_neg hne]
    · rw [if_neg hkd, ih (List.Nodup.of_cons hnd)]
      by_cases hdkt : d ∈ kt
      · rw [if_pos hdkt, if_pos (List.mem_cons_of_mem k hdkt), if_neg hkd]
      · have hdk : d ∉ k :: kt := by
          intro hmem
          rcases List.mem_cons.mp hmem with h1 | h2
          · exact hkd h1.symm
          · exact hdkt h2
        rw [if_neg hdkt, if_neg hdk, List.cons_append]

lemma filter_singleton_lane (x : Step × Nat) (k : String) :
    List.filter (fun y => deptOf y.1 == k) [x]
      = if deptOf x.1 = k then [x] else [] := by
  simp only [List.filter_cons, List.filter_nil]
  by_cases h : deptOf x.1 = k
  · simp [h]
  · simp [h]

lemma buildLanes_eq_lanesSpec : ∀ (xs : List (Step × Nat)),
    xs.foldl (fun ls x => addToLanes ls (deptOf x.1) x) [] = lanesSpec xs := by
  intro xs
  induction xs using List.reverseRecOn with
  | nil => rfl
  | append_singleton xs x ih =>
    rw [List.foldl_append, List.foldl_cons, List.foldl_nil, ih]
    unfold lanesSpec
    rw [addToLanes_map (keyOrder (xs.map (fun y => deptOf y.1)))
        (fun d => xs.filter (fun y => deptOf y.1 == d)) (deptOf x.1) x (keyOrder_nodup _)]
    simp only [List.map_append, List.map_cons, List.map_nil]
    rw [keyOrder_concat]
    by_cases hd : deptOf x.1 ∈ keyOrder (xs.map (fun y => deptOf y.1))
    · rw [if_pos hd, if_pos hd]
      refine List.map_congr_left (fun k hk => ?_)
      rw [List.filter_append, filter_singleton_lane]
      split_ifs with hkd hxd hxd
      · rfl
      · exact absurd hkd.symm hxd
      · exact absurd hxd.symm hkd
      · rw [List.append_nil]
    · rw [if_neg hd, if_neg hd, List.map_append, List.map_cons, List.map_nil]
      congr 1
      · refine List.map_congr_left (fun k hk => ?_)
        have hkx : ¬ deptOf x.1 = k := fun he => hd (he ▸ hk)
        rw [List.filter_append, filter_singleton_lane, if_neg hkx, List.append_nil]
      · have hxs : xs.filter (fun y => deptOf y.1 == deptOf x.1) = [] := by
          rw [List.filter_eq_nil_iff]
          intro y hy hbeq
          exact hd ((mem_keyOrder _ _).mpr
            (by
              rw [← beq_iff_eq.mp hbeq]
              exact List.mem_map.mpr ⟨y, hy, rfl⟩))
        rw [List.filter_append, filter_singleton_lane, if_pos rfl, hxs, List.nil_append]

/-- C8 counterexample: the claim places step `i` in serpentine grid row
`floor(i / C)` with `C ∈ [3, 8]`.  For the nine-step single-department
process `p9` the source groups all nine steps into the single "Sales"
lane (one subgraph, steps 1..9 in order), whereas every admissible
serpentine column count `3 ≤ C ≤ 8` puts step index 0 and step index 8 in
different rows — so the source's placement is not a serpentine grid for
any such `C` (in particular not for `C = clamp(ceil(sqrt(9*1.4)),3,8) = 4`). -/
theorem serpentine_grid_counterexample :
    (buildLanes steps9).length = 1
    ∧ ((buildLanes steps9).map (fun l => l.1)) = ["Sales"]
    ∧ (((buildLanes steps9).flatMap (fun l => l.2)).map (fun x => x.2))
        = [1, 2, 3, 4, 5, 6, 7, 8, 9]
    ∧ ((List.range 9).all (fun C =>
        decide (C < 3) || decide (specSerpentineRow C 0 ≠ specSerpentineRow C 8))) = true
    ∧ Line.subgraphBegin "Sales" "Sales" ∈ emitLines [p9] := by
  exact ⟨by decide, by decide, by decide, by decide, by decide⟩

/-- C8 amended: the source performs no grid placement at all; each step is
assigned to the lane (Mermaid subgraph) of its department, lanes appear in
order of first appearance of each department, and each lane holds its
steps (paired with their 1-based numbers) in input order — exactly the
`lanesSpec` grouping. -/
theorem department_lane_placement (steps : List Step) :
    buildLanes steps = lanesSpec (numbered steps) :=
  buildLanes_eq_lanesSpec (numbered steps)

lemma countP_flatten_addToLanes (q : Step × Nat → Bool) :
    ∀ (ls : List (String × List (Step × Nat))) (d : String) (x : Step × Nat),
    ((addToLanes ls d x).flatMap (fun l => l.2)).countP q
      = (ls.flatMap (fun l => l.2)).countP q + (if q x then 1 else 0) := by
  intro ls
  induction ls with
  | nil =>
    intro d x
    simp [addToLanes, List.countP_cons]
  | cons a t ih =>
    intro d x
    obtain ⟨k, xs⟩ := a
    by_cases hkd : k = d
    · rw [show addToLanes ((k, xs) :: t) d x = (k, xs ++ [x]) :: t from by
        simp [addToLanes, hkd]]
      simp only [List.flatMap_cons, List.countP_append, List.countP_cons, List.countP_nil]
      omega
    · rw [show addToLanes ((k, xs) :: t) d x = (k, xs) :: addToLanes t d x from by
        simp [addToLanes, hkd]]
      simp only [List.flatMap_cons, List.countP_append, ih d x]
      omega

lemma countP_flatten_foldl (q : Step × Nat → Bool) :
    ∀ (xs : List (Step × Nat)) (ls : List (String × List (Step × Nat))),
    (((xs.foldl (fun ls x => addToLanes ls (deptOf x.1) x) ls)).flatMap
        (fun l => l.2)).countP q
      = (ls.flatMap (fun l => l.2)).countP q + xs.countP q := by
  intro xs
  induction xs with
  | nil => simp
  | cons x xt ih =>
    intro ls
    rw [List.foldl_cons, ih, countP_flatten_addToLanes, List.countP_cons]
    omega

lemma countP_buildLanes (q : Step × Nat → Bool) (steps : List Step) :
    (((buildLanes steps)).flatMap (fun l => l.2)).countP q = (numbered steps).countP q := by
  unfold buildLanes
  rw [countP_flatten_foldl]
  simp

lemma invLinks_stepDefNums (pfx : String) (ms : List (Step × Nat)) :
    (invLinks pfx ms).filterMap stepDefNum = [] := by
  rw [List.filterMap_eq_nil_iff]
  intro l hl
  obtain ⟨a, b, rfl⟩ := invLinks_shape pfx ms l hl
  rfl

lemma lane_stepDefNums (mc : ModuleConsts) (pfx d : String) (ms : List (Step × Nat)) :
    (laneLines mc pfx d ms).filterMap stepDefNum = ms.map (fun x => x.2) := by
  unfold laneLines
  simp only [List.filterMap_append, invLinks_stepDefNums]
  rw [show List.filterMap stepDefNum
        [Line.subgraphBegin (pfx ++ sanitizeId d) (escMermaid d), Line.directionLR]
        = [] from rfl,
      show List.filterMap stepDefNum
        [Line.subgraphEnd, Line.styleSubgraph (pfx ++ sanitizeId d)
          ((mc.bg d).getD "#f1f5f9") ((mc.stroke d).getD "#94a3b8")] = [] from rfl,
      List.filterMap_map]
  simp only [List.nil_append, List.append_nil]
  rw [show (stepDefNum ∘ fun x : Step × Nat =>
        Line.nodeDef pfx x.2 (shapeOf x.1) (escMermaid x.1.name))
      = (fun x : Step × Nat => some x.2) from rfl]
  exact congrFun (List.filterMap_eq_map (fun x : Step × Nat => x.2)) ms

lemma seqLines_stepDefNums (pfx : String) (steps : List Step) (h : List Handoff) :
    (seqLines pfx steps h).filterMap stepDefNum = [] := by
  rw [List.filterMap_eq_nil_iff]
  intro l hl
  unfold seqLines at hl
  rw [List.mem_filterMap] at hl
  obtain ⟨x, _, hx⟩ := hl
  obtain ⟨k, a, b, rfl⟩ := seqEmit_shape _ _ _ _ _ _ hx
  rfl

lemma branchLines_stepDefNums (pfx : String) (steps : List Step) :
    (branchLines pfx steps).filterMap stepDefNum = [] := by
  rw [List.filterMap_eq_nil_iff]
  intro l hl
  unfold branchLines at hl
  rw [List.mem_flatMap] at hl
  obtain ⟨x, _, hmem⟩ := hl
  unfold branchLinesFor at hmem
  split_ifs at hmem
  · rw [List.mem_map] at hmem
    obtain ⟨br, _, rfl⟩ := hmem
    obtain ⟨k, a, b, heq⟩ := branchArrowFor_shape pfx steps.length x.1 br
    rw [heq]
    rfl
  · simp at hmem

lemma endLines_stepDefNums (pfx : String) (steps : List Step) (c : String) :
    (endLines pfx steps c).filterMap stepDefNum = [] := by
  unfold endLines
  split_ifs <;> rfl

lemma bottleneckLines_stepDefNums (pfx : String) (steps : List Step) (b : Option String) :
    (bottleneckLines pfx steps b).filterMap stepDefNum = [] := by
  rw [List.filterMap_eq_nil_iff]
  intro l hl
  obtain ⟨num, rfl⟩ := bottleneckLines_shape pfx steps b l hl
  rfl

lemma emphasisLines_stepDefNums (pfx : String) (steps : List Step) :
    (emphasisLines pfx steps).filterMap stepDefNum = [] := by
  rw [List.filterMap_eq_nil_iff]
  intro l hl
  unfold emphasisLines at hl
  rw [List.mem_flatMap] at hl
  obtain ⟨x, _, hmem⟩ := hl
  split_ifs at hmem <;> simp only [List.mem_singleton, List.not_mem_nil] at hmem <;>
    subst hmem <;> rfl

lemma processLines_stepDefNums (mc : ModuleConsts) (total pi : Nat) (p : Process)
    (h : p.steps.length ≠ 0) :
    (processLines mc total pi p).filterMap stepDefNum
      = ((buildLanes p.steps).flatMap (fun l => l.2)).map (fun x => x.2) := by
  unfold processLines
  rw [if_neg h]
  simp only [List.filterMap_append, seqLines_stepDefNums, branchLines_stepDefNums,
    endLines_stepDefNums, bottleneckLines_stepDefNums, emphasisLines_stepDefNums,
    List.append_nil]
  rw [show List.filterMap stepDefNum
        [Line.startNode (pfxOf total pi) (escMermaid (startsWhenOf p)),
         Line.arrow ArrowKind.plain (NodeRef.start (pfxOf total pi))
           (NodeRef.step (pfxOf total pi) 1),
         Line.styleStart (pfxOf total pi)] = [] from rfl,
      show List.filterMap stepDefNum [Line.styleDone (pfxOf total pi)] = [] from rfl,
      List.filterMap_flatMap]
  simp only [List.append_nil]
  rw [show (fun a : String × List (Step × Nat) =>
        List.filterMap stepDefNum (laneLines mc (pfxOf total pi) a.1 a.2))
      = (fun a : String × List (Step × Nat) => a.2.map (fun x => x.2)) from
        funext (fun a => lane_stepDefNums mc (pfxOf total pi) a.1 a.2),
      ← List.map_flatMap]

/-- C9: coverage.  Every step index of the input is assigned to exactly
one lane slot (its 1-based number appears exactly once across the lane
grouping) and is emitted as exactly one step-node definition. -/
theorem step_coverage (p : Process) (i : Nat) (h : i < p.steps.length) :
    (((buildLanes p.steps).flatMap (fun l => l.2)).map (fun x => x.2)).count (i + 1) = 1
    ∧ ((emitLines [p]).filterMap stepDefNum).count (i + 1) = 1 := by
  have hq : (((buildLanes p.steps).flatMap (fun l => l.2)).map (fun x => x.2)).count (i + 1)
      = 1 := by
    rw [List.count_eq_countP, List.countP_map]
    rw [show ((fun x : Nat => x == i + 1) ∘ fun x : Step × Nat => x.2)
        = (fun x : Step × Nat => x.2 == i + 1) from rfl]
    rw [countP_buildLanes]
    unfold numbered
    rw [List.countP_map]
    rw [show ((fun x : Step × Nat => x.2 == i + 1) ∘ fun q : Nat × Step => (q.2, q.1 + 1))
        = ((fun n : Nat => n + 1 == i + 1) ∘ Prod.fst) from rfl]
    rw [← List.countP_map, List.enum_map_fst]
    rw [List.countP_congr (q := fun n : Nat => n == i)
        (fun a _ => by constructor <;> (intro hb; simp only [beq_iff_eq] at hb ⊢; omega))]
    rw [← List.count_eq_countP]
    exact List.count_eq_one_of_mem (List.nodup_range _) (List.mem_range.mpr h)
  refine ⟨hq, ?_⟩
  rw [emitLines_singleton, processLines_stepDefNums defaultConsts 1 0 p (by omega)]
  exact hq

/-- Witness for C9 on the nine-step process at index 4. -/
theorem step_coverage_witness :
    (((buildLanes p9.steps).flatMap (fun l => l.2)).map (fun x => x.2)).count 5 = 1
    ∧ ((emitLines [p9]).filterMap stepDefNum).count 5 = 1 :=
  step_coverage p9 4 (by decide)

end MermaidHelper
